import Mathlib

/-!
Verification development for `torch/csrc/jit/passes/symbolic_shape_analysis.cpp`.

The pass partially evaluates a registered "shape compute graph" against the
statically known properties of a node's inputs, and extracts a symbolic shape
for the node's output.  We shallowly embed the data the pass manipulates and
translate each function of the source file into a Lean definition.  The
external simplification passes (LowerSimpleTuples, RemoveListMutation,
UnrollConstantLoops, ConstantPropagation, PeepholeOptimize, ConstantPooling,
EliminateDeadCode) are black boxes for the source file; we model them as an
arbitrary interpretation `interp : PassName → ShapeGraph → ShapeGraph` and
quantify universally over it.
-/

/-- Modelled from the spec: an analysis-time constant value (`IValue`), of
which the pass only ever builds integers and integer sequences; `tag` covers
every other constant. -/
inductive IValue where
  | ints (xs : List Int)
  | int (n : Int)
  | tag (t : Nat)
deriving DecidableEq

/-- Modelled from the spec: `c10::SymbolicShape` — an optional rank and, when
the rank is known, one optional static size per dimension (`dims.length` is
the rank). -/
structure SymbolicShape where
  dims : Option (List (Option Int))
deriving DecidableEq

def SymbolicShape.rank (s : SymbolicShape) : Option Nat :=
  s.dims.map List.length

/-- Helper: sequence a list of optional sizes, defined iff all are known. -/
def allSome : List (Option Int) → Option (List Int)
  | [] => some []
  | none :: _ => none
  | some x :: rest => (allSome rest).map (fun xs => x :: xs)

/-- Modelled from the spec: `SymbolicShape::isComplete` — rank known and every
dimension statically known. -/
def SymbolicShape.isComplete (s : SymbolicShape) : Bool :=
  match s.dims with
  | some ds => ds.all Option.isSome
  | none => false

/-- Modelled from the spec: the concrete sizes of a complete shape
(`TensorType::sizes().concrete_sizes()`). -/
def SymbolicShape.concreteSizes (s : SymbolicShape) : Option (List Int) :=
  s.dims.bind allSome

/-- Modelled from the spec: `c10::SymbolicShape(std::vector<int64_t>)` — a
fully concrete shape. -/
def SymbolicShape.fromConcrete (xs : List Int) : SymbolicShape :=
  ⟨some (xs.map some)⟩

/-- Modelled from the spec: `c10::SymbolicShape()` — the shape of unknown
rank. -/
def SymbolicShape.unranked : SymbolicShape := ⟨none⟩

/-- The index after the `if (index < 0) index = index + len;` step of
`normIndex`. -/
def normIndexShift (index : Int) (len : Nat) : Int :=
  if index < 0 then index + len else index

/-- Translation of `normIndex` from the source: add `len` to a negative index,
then return it iff it lies in `[0, len)`, else `nullopt`. -/
def normIndex (index : Int) (len : Nat) : Option Nat :=
  if 0 ≤ normIndexShift index len ∧ normIndexShift index len < (len : Int) then
    some (normIndexShift index len).toNat
  else none

/-- The kind of a use of a shape-graph input value, as dispatched on by
`substituteTensorProperties`: `aten::len`, `aten::__getitem__` (with the
result of `constant_as<int64_t>` on its index operand), or any other node
kind. -/
inductive UseKind where
  | len
  | getitem (constIdx : Option Int)
  | otherUse (t : Nat)
deriving DecidableEq

/-- A use of a shape-graph input. `resolved` records the constant that
`replaceWithIValue` installed for the use's result, if any (the replacement
rewires consumers of the user's output to a constant). -/
structure Use where
  kind : UseKind
  resolved : Option Int
deriving DecidableEq

/-- The static type of a shape-graph output value: the pass only checks
whether it is `List[int]`. -/
inductive GType where
  | listOfInt
  | otherTy (t : Nat)
deriving DecidableEq

def GType.isIntList : GType → Bool
  | .listOfInt => true
  | .otherTy _ => false

/-- The node producing the shape-graph output value: a `prim::Constant`
holding an integer list, a `prim::ListConstruct` whose elements are recorded
through `constant_as<int64_t>` (some = constant element), or any other node
kind. -/
inductive OutProducer where
  | constant (xs : List Int)
  | listConstruct (elems : List (Option Int))
  | otherNode (t : Nat)
deriving DecidableEq

/-- A shape-graph output value: its static type, producing node, and number of
uses (`output->uses().size()`; the `Return` node counts as one use). -/
structure GOutput where
  ty : GType
  producer : OutProducer
  numUses : Nat
deriving DecidableEq

/-- The shape compute graph as the pass observes it: for each graph input the
list of its uses, and the graph outputs. -/
structure ShapeGraph where
  inputs : List (List Use)
  outputs : List GOutput
deriving DecidableEq

/-- Modelled from the spec: `Graph::copy()` — the analyzer's private copy; in
a value semantics embedding a deep copy is the value itself. -/
def ShapeGraph.copy (g : ShapeGraph) : ShapeGraph := g

/-- What the analyzer reads off the analyzed node's input `i`: a
`TensorType` (with its `symbolic_sizes`), a `ListType` of `TensorType`
(unsupported), or any other type together with `toIValue` of the input
value. -/
inductive NInputType where
  | tensor (shape : SymbolicShape)
  | tensorList
  | nonTensor (value : Option IValue)
deriving DecidableEq

/-- The static type of an output of an analyzed node: a `TensorType`, carrying
its symbolic shape and (`rest`) all remaining type information (dtype, device,
…) which `withSymbolicShapes` leaves unchanged, or a non-tensor type. -/
inductive OutTy where
  | tensorTy (shape : SymbolicShape) (rest : Nat)
  | nonTensorTy (t : Nat)
deriving DecidableEq

/-- An analyzed node: its operator schema key (`toString(n->schema())`, when
`maybeSchema()` resolves), its inputs and its outputs. -/
structure JNode where
  schema : Option String
  inputs : List NInputType
  outputs : List OutTy
deriving DecidableEq

/-- The fatal conditions of the pass: `TORCH_INTERNAL_ASSERT(false)` on a
tensor-list input, the two output asserts of `extractOutputShape`, the
single-output requirement of `Node::output()` and the throwing
`expect<TensorType>`. -/
inductive Fatal where
  | tensorListInput
  | outputSizeNotOne
  | outputNotIntList
  | singleOutputExpected
  | expectedTensorType
deriving DecidableEq

/-- Helper: apply `f` to the element at position `i`, if any. -/
def listModify (f : α → α) : List α → Nat → List α
  | [], _ => []
  | a :: l, 0 => f a :: l
  | a :: l, n + 1 => a :: listModify f l n

/-- Translation of the `switch (use.user->kind())` body of
`substituteTensorProperties`: given the dims of the tracked tensor (rank
known, `dims.length` = rank), decide what constant, if any, replaces the
use's result.  `some v`: the result is replaced with constant `v`;
`none`: the use is left untouched. -/
def substituteUseResult (dims : List (Option Int)) : UseKind → Option Int
  | .len => some (Int.ofNat dims.length)
  | .getitem (some k) =>
    match normIndex k dims.length with
    | some ni =>
      match dims.get? ni with
      | some (some sz) => some sz
      | _ => none
    | none => none
  | .getitem none => none
  | .otherUse _ => none

/-- Apply `substituteUseResult` to one use, recording a replacement in
`resolved` (the effect of `replaceWithIValue(use.user->output(), v)`). -/
def substUse (dims : List (Option Int)) (u : Use) : Use :=
  match substituteUseResult dims u.kind with
  | some v => { u with resolved := some v }
  | none => u

/-- Translation of `substituteTensorProperties(index)`: re-read the symbolic
sizes of the node's input at `index`, return unchanged when the rank is
unknown, otherwise rewrite every use of graph input `index`.  (A tracked
index always designates a tensor input, so the non-tensor fallthrough is
unreachable from `run`.) -/
def substituteTensorProperties (n : JNode) (g : ShapeGraph) (idx : Nat) : ShapeGraph :=
  match n.inputs.get? idx with
  | some (.tensor s) =>
    match s.dims with
    | some dims =>
      { g with inputs := listModify (fun us => us.map (substUse dims)) g.inputs idx }
    | none => g
  | _ => g

/-- Translation of `substituteInputTensorProperties`: substitute for every
tracked index, in order. -/
def substituteInputTensorProperties (n : JNode) (tracked : List Nat) (g : ShapeGraph) :
    ShapeGraph :=
  tracked.foldl (substituteTensorProperties n) g

/-- The action the analyzer constructor takes for one input position. -/
inductive SpecAction where
  | replaceShapeConst (sizes : List Int)
  | track
  | leaveSymbolic
  | replaceValConst (v : IValue)
  | fatalTensorList
deriving DecidableEq

/-- Translation of the per-input branch of the `SymbolicShapeAnalyzer`
constructor: a complete tensor shape is replaced by its concrete sizes, a
tensor of known (but incomplete) rank is tracked, a tensor of unknown rank is
left symbolic, a tensor list hits `TORCH_INTERNAL_ASSERT(false)`, and a
non-tensor input is replaced iff `toIValue` resolves it.  (When `isComplete`
holds, `concreteSizes` is defined; the `leaveSymbolic` fallback of the inner
match is unreachable.) -/
def specializeInput : NInputType → SpecAction
  | .tensor s =>
    if s.isComplete then
      match s.concreteSizes with
      | some xs => .replaceShapeConst xs
      | none => .leaveSymbolic
    else if (SymbolicShape.rank s).isSome then .track
    else .leaveSymbolic
  | .tensorList => .fatalTensorList
  | .nonTensor (some v) => .replaceValConst v
  | .nonTensor none => .leaveSymbolic

/-- Effect on the graph of `replaceWithIValue(graph_->inputs().at(i), v)`:
every use of input `i` is rewired to a fresh constant, so input `i` is left
with no uses. -/
def replaceInputWithIValue (i : Nat) (g : ShapeGraph) : ShapeGraph :=
  { g with inputs := listModify (fun _ => []) g.inputs i }

/-- Translation of the constructor loop of `SymbolicShapeAnalyzer`: walk the
node inputs from position `i`, applying each input's action to the private
graph copy and collecting `node_input_tensor_indices`; a tensor-list input
aborts. -/
def specializeLoop : Nat → List NInputType → ShapeGraph →
    Except Fatal (ShapeGraph × List Nat)
  | _, [], g => .ok (g, [])
  | i, inp :: rest, g =>
    match specializeInput inp with
    | .fatalTensorList => .error .tensorListInput
    | .replaceShapeConst _ => specializeLoop (i + 1) rest (replaceInputWithIValue i g)
    | .replaceValConst _ => specializeLoop (i + 1) rest (replaceInputWithIValue i g)
    | .track => (specializeLoop (i + 1) rest g).map (fun p => (p.1, i :: p.2))
    | .leaveSymbolic => specializeLoop (i + 1) rest g

/-- Whether a node input is a tensor-valued list
(`type->cast<ListType>() && elementType->cast<TensorType>()`). -/
def isTensorListTy : NInputType → Bool
  | .tensorList => true
  | _ => false

/-- Whether some input of the node is a tensor-valued list. -/
def hasTensorListInput (n : JNode) : Bool :=
  n.inputs.any isTensorListTy

/-- The passes applied by `SymbolicShapeAnalyzer::run`:
`substituteInputTensorProperties` is internal; the rest are the external
black-box passes. -/
inductive PassName where
  | substituteProps
  | lowerSimpleTuples
  | removeListMutation
  | unrollConstantLoops
  | constantPropagation
  | peepholeOptimize
  | constantPooling
  | eliminateDeadCode
deriving DecidableEq

/-- The fixed iteration budget of `run` (`size_t num_optimization_iters = 6`). -/
def num_optimization_iters : Nat := 6

/-- One round of the loop body of `run`, in source order. -/
def optimizationRound : List PassName :=
  [.substituteProps, .lowerSimpleTuples, .removeListMutation, .unrollConstantLoops,
   .constantPropagation, .peepholeOptimize, .constantPropagation]

/-- `n` repetitions of the round. -/
def repeatRounds : Nat → List PassName
  | 0 => []
  | n + 1 => optimizationRound ++ repeatRounds n

/-- The complete, constant pass schedule of `run`: the bounded loop followed
by one `ConstantPooling` and one `EliminateDeadCode`. -/
def runSchedule : List PassName :=
  repeatRounds num_optimization_iters ++ [.constantPooling, .eliminateDeadCode]

/-- Interpretation of one schedule entry: the internal substitution pass runs
our translation; every external pass runs the black-box `interp`. -/
def stepPass (interp : PassName → ShapeGraph → ShapeGraph) (n : JNode)
    (tracked : List Nat) (g : ShapeGraph) : PassName → ShapeGraph
  | .substituteProps => substituteInputTensorProperties n tracked g
  | p => interp p g

/-- The graph as it stands after the whole schedule has run. -/
def simplifiedGraph (interp : PassName → ShapeGraph → ShapeGraph) (n : JNode)
    (tracked : List Nat) (g0 : ShapeGraph) : ShapeGraph :=
  runSchedule.foldl (fun g p => stepPass interp n tracked g p) g0

/-- Translation of `extractOutputShape`: assert a single output of static type
`List[int]`; a constant output yields the concrete shape, a single-use
`ListConstruct` yields a known-rank shape with its constant elements as known
dims, anything else yields the unranked shape. -/
def extractOutputShape (g : ShapeGraph) : Except Fatal SymbolicShape :=
  match g.outputs with
  | [out] =>
    if out.ty.isIntList then
      match out.producer with
      | .constant xs => .ok (SymbolicShape.fromConcrete xs)
      | .listConstruct elems =>
        if out.numUses = 1 then .ok ⟨some elems⟩ else .ok SymbolicShape.unranked
      | .otherNode _ => .ok SymbolicShape.unranked
    else .error .outputNotIntList
  | _ => .error .outputSizeNotOne

/-- Translation of `SymbolicShapeAnalyzer::run` on an already-specialized
graph: fold the schedule, then extract the output shape. -/
def SymbolicShapeAnalyzer.run (interp : PassName → ShapeGraph → ShapeGraph)
    (n : JNode) (g0 : ShapeGraph) (tracked : List Nat) : Except Fatal SymbolicShape :=
  extractOutputShape (simplifiedGraph interp n tracked g0)

/-- One whole analysis: construct the analyzer on a private copy of the
registered graph (specializing the inputs), then `run`. -/
def analyze (interp : PassName → ShapeGraph → ShapeGraph) (n : JNode)
    (shapeComputeGraph : ShapeGraph) : Except Fatal SymbolicShape :=
  match specializeLoop 0 n.inputs shapeComputeGraph.copy with
  | .error e => .error e
  | .ok p => SymbolicShapeAnalyzer.run interp n p.1 p.2

/-- Lookup in the registry (`operator_functions.count` / `operator_functions[key]`),
modelled as an association list searched front to back. -/
def lookupFn : List (String × ShapeGraph) → String → Option ShapeGraph
  | [], _ => none
  | e :: rest, s => if e.1 = s then some e.2 else lookupFn rest s

/-- Translation of `RegisterOperatorShapeFunction`: return unchanged when the
node has no resolvable schema or the signature is already registered;
otherwise insert. -/
def RegisterOperatorShapeFunction (reg : List (String × ShapeGraph)) (n : JNode)
    (g : ShapeGraph) : List (String × ShapeGraph) :=
  match n.schema with
  | none => reg
  | some s => if (lookupFn reg s).isSome then reg else reg ++ [(s, g)]

/-- Modelled from the spec: `Node::output()` of the IR API — asserts that the
node has exactly one output and returns it. -/
def JNode.output (n : JNode) : Except Fatal OutTy :=
  match n.outputs with
  | [t] => .ok t
  | _ => .error .singleOutputExpected

/-- Translation of `PropagateShapesWithShapeFunction`: run the analyzer, then
set the single output's tensor type to one with the derived symbolic shape
(`withSymbolicShapes` keeps every other piece of type information);
`expect<TensorType>` throws on a non-tensor output. -/
def PropagateShapesWithShapeFunction (interp : PassName → ShapeGraph → ShapeGraph)
    (n : JNode) (g : ShapeGraph) : Except Fatal JNode :=
  match analyze interp n g with
  | .error e => .error e
  | .ok out =>
    match n.output with
    | .error e => .error e
    | .ok (.tensorTy _ rest) => .ok { n with outputs := [.tensorTy out rest] }
    | .ok (.nonTensorTy _) => .error .expectedTensorType

/-- The per-node body of the `PropagateShapesOnGraph` loop: a node whose
resolvable schema is registered is analyzed and annotated; every other node is
left untouched. -/
def propagateNode (reg : List (String × ShapeGraph))
    (interp : PassName → ShapeGraph → ShapeGraph) (n : JNode) : Except Fatal JNode :=
  match n.schema with
  | some s =>
    match lookupFn reg s with
    | some g => PropagateShapesWithShapeFunction interp n g
    | none => .ok n
  | none => .ok n

/-- Translation of `PropagateShapesOnGraph`: walk the nodes of the target
graph in order. -/
def PropagateShapesOnGraph (reg : List (String × ShapeGraph))
    (interp : PassName → ShapeGraph → ShapeGraph) : List JNode → Except Fatal (List JNode)
  | [] => .ok []
  | n :: ns =>
    match propagateNode reg interp n with
    | .error e => .error e
    | .ok n2 =>
      match PropagateShapesOnGraph reg interp ns with
      | .error e => .error e
      | .ok ns2 => .ok (n2 :: ns2)

/-- The process-wide state the pass touches besides the target graph: the
`operator_functions` registry. -/
structure ShapeRegistry where
  operator_functions : List (String × ShapeGraph)
deriving DecidableEq

/-- `PropagateShapesOnGraph` with the global registry threaded explicitly: the
pass only reads `operator_functions`. -/
def PropagateShapesOnGraphR (reg : ShapeRegistry)
    (interp : PassName → ShapeGraph → ShapeGraph) (G : List JNode) :
    Except Fatal (ShapeRegistry × List JNode) :=
  (PropagateShapesOnGraph reg.operator_functions interp G).map (fun G2 => (reg, G2))

/-- Whether a node is eligible for propagation: a resolvable schema present in
the registry. -/
def eligibleNode (reg : List (String × ShapeGraph)) (n : JNode) : Bool :=
  (n.schema.bind (lookupFn reg)).isSome

/-- The tracked indices (`node_input_tensor_indices`) the constructor loop
collects, starting at position `i`, described positionally. -/
def trackedOf : Nat → List NInputType → List Nat
  | _, [] => []
  | i, inp :: rest =>
    match specializeInput inp with
    | .track => i :: trackedOf (i + 1) rest
    | _ => trackedOf (i + 1) rest

/-- The net effect of the constructor loop on the graph copy, described
positionally: inputs whose action is a replacement lose their uses, all
others are untouched. -/
def specializedInputs : Nat → List NInputType → ShapeGraph → ShapeGraph
  | _, [], g => g
  | i, inp :: rest, g =>
    match specializeInput inp with
    | .replaceShapeConst _ => specializedInputs (i + 1) rest (replaceInputWithIValue i g)
    | .replaceValConst _ => specializedInputs (i + 1) rest (replaceInputWithIValue i g)
    | _ => specializedInputs (i + 1) rest g

/-- Whether the graph satisfies the output precondition of
`extractOutputShape`: exactly one output, statically typed `List[int]`. -/
def outputWellFormed (g : ShapeGraph) : Bool :=
  match g.outputs with
  | [o] => o.ty.isIntList
  | _ => false

/-- C1: for a tracked tensor input of known rank `r = dims.length`, the
property-substitution step replaces a length query's result with the constant
`r`; an indexing query with a statically known integer index `k` is normalized
by adding `r` when `k < 0`, and when the normalized index lies in `[0, r)`
(so it indexes within bounds and the code never faults) with that dimension's
static size known, the use's result is replaced by that size; an out-of-range
normalized index, a non-constant index, an unknown dimension, and any other
use kind leave the use untouched. -/
theorem C1_property_substitution (dims : List (Option Int)) (k : Int) :
    (substituteUseResult dims .len = some (Int.ofNat dims.length)) ∧
    (∀ t, substituteUseResult dims (.otherUse t) = none) ∧
    (substituteUseResult dims (.getitem none) = none) ∧
    (∀ ni, normIndex k dims.length = some ni → ni < dims.length) ∧
    (normIndex k dims.length = none →
      substituteUseResult dims (.getitem (some k)) = none) ∧
    (∀ ni, normIndex k dims.length = some ni → dims[ni]? = some none →
      substituteUseResult dims (.getitem (some k)) = none) ∧
    (∀ ni sz, normIndex k dims.length = some ni → dims[ni]? = some (some sz) →
      substituteUseResult dims (.getitem (some k)) = some sz) ∧
    (normIndexShift k dims.length = if k < 0 then k + (dims.length : Int) else k) ∧
    (normIndex k dims.length = some (normIndexShift k dims.length).toNat ↔
      0 ≤ normIndexShift k dims.length ∧
        normIndexShift k dims.length < (dims.length : Int)) := by
  refine ⟨rfl, fun t => rfl, rfl, ?_, ?_, ?_, ?_, rfl, ?_⟩
  · intro ni h
    unfold normIndex at h
    split at h
    · next hc => cases h; omega
    · exact absurd h (by simp)
  · intro h
    simp [substituteUseResult, h]
  · intro ni h hd
    simp [substituteUseResult, h, hd]
  · intro ni sz h hd
    simp [substituteUseResult, h, hd]
  · unfold normIndex
    split
    · next hc => exact ⟨fun _ => hc, fun _ => rfl⟩
    · next hc => exact ⟨fun h => absurd h (by simp), fun h => absurd h hc⟩

/-- Witness for C1 at concrete inputs: index `-1` into rank `3` with static
size `7` at normalized position `2` is replaced by `7`; index `-5` into rank
`4` is out of range after normalization and leaves the use untouched. -/
theorem C1_property_substitution_witness :
    (normIndex (-1) 3 = some 2 ∧
      substituteUseResult [some 5, none, some 7] (.getitem (some (-1))) = some 7) ∧
    (normIndex (-5) 4 = none ∧
      substituteUseResult [none, some 2, some 3, some 4] (.getitem (some (-5))) = none) := by
  refine ⟨⟨by decide, ?_⟩, ⟨by decide, ?_⟩⟩
  · exact (C1_property_substitution [some 5, none, some 7] (-1)).2.2.2.2.2.2.1 2 7
      (by decide) (by decide)
  · exact (C1_property_substitution [none, some 2, some 3, some 4] (-5)).2.2.2.2.1
      (by decide)

/-- C2: output extraction on a single `List[int]`-typed output is a three-way
case split: a constant output yields the fully concrete shape built from that
integer sequence; a list-construction output with exactly one consumer yields
a shape of known rank equal to the number of elements, whose dims are exactly
the per-element constants (known where constant, unknown elsewhere); any
other producer, or a list construction with more than one use, yields the
unknown-rank shape. -/
theorem C2_extract_output (ins : List (List Use)) (ty : GType) (u : Nat)
    (xs : List Int) (elems : List (Option Int)) (t : Nat)
    (hty : ty.isIntList = true) :
    (extractOutputShape ⟨ins, [⟨ty, .constant xs, u⟩]⟩ =
        .ok (SymbolicShape.fromConcrete xs) ∧
      (SymbolicShape.fromConcrete xs).isComplete = true ∧
      (SymbolicShape.fromConcrete xs).rank = some xs.length) ∧
    (u = 1 →
      extractOutputShape ⟨ins, [⟨ty, .listConstruct elems, u⟩]⟩ = .ok ⟨some elems⟩ ∧
      SymbolicShape.rank ⟨some elems⟩ = some elems.length) ∧
    (u ≠ 1 →
      extractOutputShape ⟨ins, [⟨ty, .listConstruct elems, u⟩]⟩ =
        .ok SymbolicShape.unranked) ∧
    (extractOutputShape ⟨ins, [⟨ty, .otherNode t, u⟩]⟩ = .ok SymbolicShape.unranked) ∧
    SymbolicShape.rank SymbolicShape.unranked = none := by
  refine ⟨⟨?_, ?_, ?_⟩, ?_, ?_, ?_, rfl⟩
  · simp [extractOutputShape, hty]
  · simp [SymbolicShape.fromConcrete, SymbolicShape.isComplete, List.all_eq_true]
  · simp [SymbolicShape.fromConcrete, SymbolicShape.rank]
  · intro hu
    simp [extractOutputShape, hty, hu, SymbolicShape.rank]
  · intro hu
    simp [extractOutputShape, hty, hu]
  · simp [extractOutputShape, hty]

/-- Witness for C2 at concrete inputs: a constant `[2, 3]` output, a
single-use list construction `[some 1, none]`, a doubly-used list
construction, and an other-node producer. -/
theorem C2_extract_output_witness :
    (extractOutputShape ⟨[], [⟨.listOfInt, .constant [2, 3], 1⟩]⟩ =
        .ok (SymbolicShape.fromConcrete [2, 3])) ∧
    (extractOutputShape ⟨[], [⟨.listOfInt, .listConstruct [some 1, none], 1⟩]⟩ =
        .ok ⟨some [some 1, none]⟩) ∧
    (extractOutputShape ⟨[], [⟨.listOfInt, .listConstruct [some 1, none], 2⟩]⟩ =
        .ok SymbolicShape.unranked) := by
  refine ⟨?_, ?_, ?_⟩
  · exact (C2_extract_output [] .listOfInt 1 [2, 3] [] 0 (by decide)).1.1
  · exact ((C2_extract_output [] .listOfInt 1 [] [some 1, none] 0 (by decide)).2.1 rfl).1
  · exact (C2_extract_output [] .listOfInt 2 [] [some 1, none] 0 (by decide)).2.2.1
      (by decide)

/-- Helper: whether an analysis run completed without a fatal condition. -/
def exceptOk : Except Fatal SymbolicShape → Bool
  | .ok _ => true
  | .error _ => false

/-- Helper: a list of dimensions that are all statically known sequences to a
concrete size list. -/
theorem allSome_isSome {ds : List (Option Int)} (h : ds.all Option.isSome = true) :
    ∃ xs, allSome ds = some xs := by
  induction ds with
  | nil => exact ⟨[], rfl⟩
  | cons d rest ih =>
    simp only [List.all_cons, Bool.and_eq_true] at h
    obtain ⟨xs, hxs⟩ := ih h.2
    cases d with
    | none => exact absurd h.1 (by simp)
    | some x => exact ⟨x :: xs, by simp [allSome, hxs]⟩

/-- Helper: the constructor aborts exactly on tensor-list inputs. -/
theorem specializeInput_eq_fatal_iff (t : NInputType) :
    specializeInput t = .fatalTensorList ↔ t = .tensorList := by
  cases t with
  | tensor s =>
    simp only [specializeInput]
    split
    · split <;> simp
    · split <;> simp
  | tensorList => simp [specializeInput]
  | nonTensor v => cases v <;> simp [specializeInput]

/-- Helper: on a node without tensor-list inputs the constructor loop runs to
completion, clears the uses of replaced inputs, and collects exactly the
tracked positions. -/
theorem specializeLoop_ok (inputs : List NInputType) :
    ∀ i g, inputs.any isTensorListTy = false →
      specializeLoop i inputs g = .ok (specializedInputs i inputs g, trackedOf i inputs) := by
  induction inputs with
  | nil => intro i g _; rfl
  | cons inp rest ih =>
    intro i g h
    rw [List.any_cons, Bool.or_eq_false_iff] at h
    have hnf : specializeInput inp ≠ .fatalTensorList := by
      intro hf
      rw [specializeInput_eq_fatal_iff] at hf
      subst hf
      simp [isTensorListTy] at h
    cases ha : specializeInput inp with
    | fatalTensorList => exact absurd ha hnf
    | replaceShapeConst xs =>
      simp [specializeLoop, specializedInputs, trackedOf, ha, ih _ _ h.2]
    | replaceValConst v =>
      simp [specializeLoop, specializedInputs, trackedOf, ha, ih _ _ h.2]
    | track =>
      simp [specializeLoop, specializedInputs, trackedOf, ha, ih _ _ h.2, Except.map]
    | leaveSymbolic =>
      simp [specializeLoop, specializedInputs, trackedOf, ha, ih _ _ h.2]

/-- Helper: with a tensor-list input somewhere, the constructor loop aborts
with the tensor-list assertion. -/
theorem specializeLoop_fatal (inputs : List NInputType) :
    ∀ i g, inputs.any isTensorListTy = true →
      specializeLoop i inputs g = .error .tensorListInput := by
  induction inputs with
  | nil => intro i g h; simp at h
  | cons inp rest ih =>
    intro i g h
    cases hf : specializeInput inp with
    | fatalTensorList => simp [specializeLoop, hf]
    | replaceShapeConst xs =>
      have hrest : rest.any isTensorListTy = true := by
        rw [List.any_cons] at h
        rcases Bool.or_eq_true_iff.mp h with h1 | h1
        · cases inp <;> simp_all [isTensorListTy, specializeInput]
        · exact h1
      simp [specializeLoop, hf, ih _ _ hrest]
    | replaceValConst v =>
      have hrest : rest.any isTensorListTy = true := by
        rw [List.any_cons] at h
        rcases Bool.or_eq_true_iff.mp h with h1 | h1
        · cases inp <;> simp_all [isTensorListTy, specializeInput]
        · exact h1
      simp [specializeLoop, hf, ih _ _ hrest]
    | track =>
      have hrest : rest.any isTensorListTy = true := by
        rw [List.any_cons] at h
        rcases Bool.or_eq_true_iff.mp h with h1 | h1
        · cases inp <;> simp_all [isTensorListTy, specializeInput]
        · exact h1
      simp [specializeLoop, hf, ih _ _ hrest, Except.map]
    | leaveSymbolic =>
      have hrest : rest.any isTensorListTy = true := by
        rw [List.any_cons] at h
        rcases Bool.or_eq_true_iff.mp h with h1 | h1
        · cases inp <;> simp_all [isTensorListTy, specializeInput]
        · exact h1
      simp [specializeLoop, hf, ih _ _ hrest]

/-- C3: input specialization handles each position independently: a tensor
with fully concrete shape is replaced by its constant size sequence and not
tracked; a tensor of known but incomplete rank is tracked and its program
input left untouched; a tensor of unknown rank is left symbolic and not
tracked; a non-tensor input with a known constant value is replaced by that
constant.  The constructor loop realizes exactly these per-position actions:
it returns the graph with only the replaced positions' uses cleared and the
tracked index list collecting exactly the tracked positions, in order. -/
theorem C3_input_specialization :
    (∀ s : SymbolicShape, s.isComplete = true →
      ∃ xs, s.concreteSizes = some xs ∧
        specializeInput (.tensor s) = .replaceShapeConst xs) ∧
    (∀ s : SymbolicShape, s.isComplete = false → (SymbolicShape.rank s).isSome = true →
      specializeInput (.tensor s) = .track) ∧
    (∀ s : SymbolicShape, SymbolicShape.rank s = none →
      specializeInput (.tensor s) = .leaveSymbolic) ∧
    (∀ v, specializeInput (.nonTensor (some v)) = .replaceValConst v) ∧
    (specializeInput (.nonTensor none) = .leaveSymbolic) ∧
    (∀ n : JNode, ∀ g : ShapeGraph, hasTensorListInput n = false →
      specializeLoop 0 n.inputs g =
        .ok (specializedInputs 0 n.inputs g, trackedOf 0 n.inputs)) := by
  refine ⟨?_, ?_, ?_, fun v => rfl, rfl, ?_⟩
  · intro s hc
    cases hdims : s.dims with
    | none => rw [SymbolicShape.isComplete, hdims] at hc; exact absurd hc (by simp)
    | some ds =>
      rw [SymbolicShape.isComplete, hdims] at hc
      obtain ⟨xs, hxs⟩ := allSome_isSome hc
      have hcs : s.concreteSizes = some xs := by
        rw [SymbolicShape.concreteSizes, hdims]; exact hxs
      refine ⟨xs, hcs, ?_⟩
      have hc2 : s.isComplete = true := by rw [SymbolicShape.isComplete, hdims]; exact hc
      simp [specializeInput, hc2, hcs]
  · intro s h1 h2
    simp [specializeInput, h1, h2]
  · intro s h
    have hdims : s.dims = none := by
      cases hd : s.dims with
      | none => rfl
      | some ds => rw [SymbolicShape.rank, hd] at h; exact absurd h (by simp)
    simp [specializeInput, SymbolicShape.isComplete, SymbolicShape.rank, hdims]
  · intro n g h
    exact specializeLoop_ok n.inputs 0 g (by simpa [hasTensorListInput] using h)

/-- Witness for C3 at concrete inputs: a complete shape `[2, 3]` is replaced
by its sizes; an incomplete rank-2 shape is tracked; a two-input node (a
tracked tensor and a known non-tensor constant) specializes to the graph with
only input 1's uses cleared and tracked list `[0]`. -/
theorem C3_input_specialization_witness :
    specializeInput (.tensor ⟨some [some 2, some 3]⟩) = .replaceShapeConst [2, 3] ∧
    specializeInput (.tensor ⟨some [none, some 3]⟩) = .track ∧
    specializeLoop 0 [.tensor ⟨some [none, some 3]⟩, .nonTensor (some (.int 4))]
        ⟨[[⟨.len, none⟩], [⟨.otherUse 0, none⟩]], []⟩ =
      .ok (⟨[[⟨.len, none⟩], []], []⟩, [0]) := by
  obtain ⟨c1, c2, _, _, _, c6⟩ := C3_input_specialization
  refine ⟨?_, c2 ⟨some [none, some 3]⟩ (by decide) (by decide), ?_⟩
  · obtain ⟨xs, hxs, hact⟩ := c1 ⟨some [some 2, some 3]⟩ (by decide)
    have hval : SymbolicShape.concreteSizes ⟨some [some 2, some 3]⟩ = some [2, 3] := rfl
    rw [hval] at hxs
    cases hxs
    exact hact
  · exact (c6 ⟨none, [.tensor ⟨some [none, some 3]⟩, .nonTensor (some (.int 4))],
      []⟩ ⟨[[⟨.len, none⟩], [⟨.otherUse 0, none⟩]], []⟩ (by decide)).trans (by rfl)

/-- C4: one analyzer run performs a fixed, non-adaptive schedule: exactly
`num_optimization_iters = 6` rounds, each applying property substitution then
tuple lowering, list-mutation removal, constant loop unrolling, constant
propagation, peephole optimization and constant propagation again, in that
order; after the rounds, constant pooling then dead-code elimination run
exactly once before output extraction.  The schedule is a constant list, and
the run folds exactly it, substitution interpreted internally and every other
pass by the black-box interpretation. -/
theorem C4_driver_schedule :
    num_optimization_iters = 6 ∧
    runSchedule =
      [.substituteProps, .lowerSimpleTuples, .removeListMutation, .unrollConstantLoops,
       .constantPropagation, .peepholeOptimize, .constantPropagation,
       .substituteProps, .lowerSimpleTuples, .removeListMutation, .unrollConstantLoops,
       .constantPropagation, .peepholeOptimize, .constantPropagation,
       .substituteProps, .lowerSimpleTuples, .removeListMutation, .unrollConstantLoops,
       .constantPropagation, .peepholeOptimize, .constantPropagation,
       .substituteProps, .lowerSimpleTuples, .removeListMutation, .unrollConstantLoops,
       .constantPropagation, .peepholeOptimize, .constantPropagation,
       .substituteProps, .lowerSimpleTuples, .removeListMutation, .unrollConstantLoops,
       .constantPropagation, .peepholeOptimize, .constantPropagation,
       .substituteProps, .lowerSimpleTuples, .removeListMutation, .unrollConstantLoops,
       .constantPropagation, .peepholeOptimize, .constantPropagation,
       .constantPooling, .eliminateDeadCode] ∧
    (∀ interp n g0 tracked, SymbolicShapeAnalyzer.run interp n g0 tracked =
      extractOutputShape (runSchedule.foldl (fun g p => stepPass interp n tracked g p) g0)) ∧
    (∀ interp n tracked g,
      stepPass interp n tracked g .substituteProps =
        substituteInputTensorProperties n tracked g) ∧
    (∀ interp n tracked g p, p ≠ PassName.substituteProps →
      stepPass interp n tracked g p = interp p g) := by
  refine ⟨rfl, by decide, fun _ _ _ _ => rfl, fun _ _ _ _ => rfl, ?_⟩
  intro interp n tracked g p hp
  cases p with
  | substituteProps => exact absurd rfl hp
  | lowerSimpleTuples => rfl
  | removeListMutation => rfl
  | unrollConstantLoops => rfl
  | constantPropagation => rfl
  | peepholeOptimize => rfl
  | constantPooling => rfl
  | eliminateDeadCode => rfl

/-- Witness for C4 at a concrete input: an external pass is interpreted by the
black box (here the identity interpretation). -/
theorem C4_driver_schedule_witness :
    stepPass (fun _ g => g) ⟨none, [], []⟩ [] ⟨[], []⟩ .constantPropagation = ⟨[], []⟩ :=
  C4_driver_schedule.2.2.2.2 (fun _ g => g) ⟨none, [], []⟩ [] ⟨[], []⟩
    .constantPropagation (by decide)

/-- Helper: a signature absent from the registry is found after appending its
entry. -/
theorem lookupFn_append_single (reg : List (String × ShapeGraph)) (s : String)
    (g : ShapeGraph) (h : lookupFn reg s = none) :
    lookupFn (reg ++ [(s, g)]) s = some g := by
  induction reg with
  | nil => simp [lookupFn]
  | cons e rest ih =>
    by_cases he : e.1 = s
    · rw [lookupFn, if_pos he] at h
      exact absurd h (by simp)
    · rw [lookupFn, if_neg he] at h
      rw [List.cons_append, lookupFn, if_neg he]
      exact ih h

/-- C5: registration is first-write-wins: a signature already present leaves
the registry unchanged with no error, a node without a resolvable signature
registers nothing, and after two registrations under the same fresh signature
the lookup used by propagation still returns the first program. -/
theorem C5_registry_first_write_wins (reg : List (String × ShapeGraph)) (s : String)
    (g1 g2 : ShapeGraph) (n1 n2 : JNode) :
    ((lookupFn reg s).isSome = true → n1.schema = some s →
      ∀ g, RegisterOperatorShapeFunction reg n1 g = reg) ∧
    (n1.schema = none → ∀ g, RegisterOperatorShapeFunction reg n1 g = reg) ∧
    (n1.schema = some s → n2.schema = some s → lookupFn reg s = none →
      RegisterOperatorShapeFunction (RegisterOperatorShapeFunction reg n1 g1) n2 g2 =
        RegisterOperatorShapeFunction reg n1 g1 ∧
      lookupFn
        (RegisterOperatorShapeFunction (RegisterOperatorShapeFunction reg n1 g1) n2 g2)
        s = some g1) := by
  refine ⟨?_, ?_, ?_⟩
  · intro h hs g
    simp [RegisterOperatorShapeFunction, hs, h]
  · intro hs g
    simp [RegisterOperatorShapeFunction, hs]
  · intro h1 h2 hn
    have hfirst : RegisterOperatorShapeFunction reg n1 g1 = reg ++ [(s, g1)] := by
      simp [RegisterOperatorShapeFunction, h1, hn]
    have hlook : lookupFn (reg ++ [(s, g1)]) s = some g1 :=
      lookupFn_append_single reg s g1 hn
    rw [hfirst]
    constructor
    · simp [RegisterOperatorShapeFunction, h2, hlook]
    · simp [RegisterOperatorShapeFunction, h2, hlook]

/-- Witness for C5 at concrete inputs: registering a second, different program
under `"op"` neither replaces the first nor changes what lookup returns. -/
theorem C5_registry_first_write_wins_witness :
    RegisterOperatorShapeFunction
        (RegisterOperatorShapeFunction [] ⟨some "op", [], []⟩ ⟨[], []⟩)
        ⟨some "op", [], []⟩ ⟨[[]], []⟩ =
      RegisterOperatorShapeFunction [] ⟨some "op", [], []⟩ ⟨[], []⟩ ∧
    lookupFn
      (RegisterOperatorShapeFunction
        (RegisterOperatorShapeFunction [] ⟨some "op", [], []⟩ ⟨[], []⟩)
        ⟨some "op", [], []⟩ ⟨[[]], []⟩) "op" = some ⟨[], []⟩ :=
  (C5_registry_first_write_wins [] "op" ⟨[], []⟩ ⟨[[]], []⟩
    ⟨some "op", [], []⟩ ⟨some "op", [], []⟩).2.2 rfl rfl rfl

/-- Helper: inversion of a successful `PropagateShapesWithShapeFunction`: the
analysis succeeded, the node had a single tensor output, and only that
output's shape was replaced. -/
theorem propagateWith_ok_inv (interp : PassName → ShapeGraph → ShapeGraph)
    (n n' : JNode) (g : ShapeGraph)
    (h : PropagateShapesWithShapeFunction interp n g = .ok n') :
    ∃ out sh rest, analyze interp n g = .ok out ∧ n.outputs = [.tensorTy sh rest] ∧
      n' = { n with outputs := [.tensorTy out rest] } := by
  unfold PropagateShapesWithShapeFunction at h
  cases ha : analyze interp n g with
  | error e => rw [ha] at h; simp at h
  | ok out =>
    rw [ha] at h
    unfold JNode.output at h
    cases ho : n.outputs with
    | nil => rw [ho] at h; simp at h
    | cons t rest2 =>
      cases rest2 with
      | nil =>
        cases t with
        | tensorTy sh r =>
          rw [ho] at h
          simp only [] at h
          exact ⟨out, sh, r, rfl, rfl, by cases h; rfl⟩
        | nonTensorTy tg =>
          rw [ho] at h
          simp at h
      | cons t2 rest3 =>
        rw [ho] at h
        simp at h

/-- Helper: a successful analysis on a single-tensor-output node propagates to
exactly the shape-annotated node. -/
theorem propagateWith_ok_build (interp : PassName → ShapeGraph → ShapeGraph)
    (n : JNode) (g : ShapeGraph) (out : SymbolicShape) (sh : SymbolicShape) (rest : Nat)
    (ha : analyze interp n g = .ok out) (ho : n.outputs = [.tensorTy sh rest]) :
    PropagateShapesWithShapeFunction interp n g =
      .ok { n with outputs := [.tensorTy out rest] } := by
  unfold PropagateShapesWithShapeFunction JNode.output
  rw [ha, ho]

/-- Helper: folding pointwise equal functions gives equal results. -/
theorem foldl_congr_fn {α β : Type} {f1 f2 : β → α → β} (h : ∀ b a, f1 b a = f2 b a) :
    ∀ (l : List α) (b : β), l.foldl f1 b = l.foldl f2 b := by
  intro l
  induction l with
  | nil => intro b; rfl
  | cons a l ih =>
    intro b
    rw [List.foldl_cons, List.foldl_cons, h, ih]

/-- Helper: the analysis reads the node only through its input list — its
schema and outputs are irrelevant to the derived shape. -/
theorem analyze_inputs_congr (interp : PassName → ShapeGraph → ShapeGraph)
    (n1 n2 : JNode) (g : ShapeGraph) (h : n1.inputs = n2.inputs) :
    analyze interp n1 g = analyze interp n2 g := by
  have hsub : ∀ gg idx,
      substituteTensorProperties n1 gg idx = substituteTensorProperties n2 gg idx := by
    intro gg idx
    unfold substituteTensorProperties
    rw [h]
  have hstep : ∀ tracked gg p, stepPass interp n1 tracked gg p = stepPass interp n2 tracked gg p := by
    intro tracked gg p
    cases p with
    | substituteProps =>
      show substituteInputTensorProperties n1 tracked gg =
        substituteInputTensorProperties n2 tracked gg
      unfold substituteInputTensorProperties
      exact foldl_congr_fn hsub tracked gg
    | lowerSimpleTuples => rfl
    | removeListMutation => rfl
    | unrollConstantLoops => rfl
    | constantPropagation => rfl
    | peepholeOptimize => rfl
    | constantPooling => rfl
    | eliminateDeadCode => rfl
  unfold analyze
  rw [h]
  congr 1
  funext p
  unfold SymbolicShapeAnalyzer.run simplifiedGraph
  rw [foldl_congr_fn (fun b a => hstep p.2 b a) runSchedule p.1]

/-- Helper: on a graph meeting the output precondition, extraction succeeds. -/
theorem extract_ok_of_wf (g : ShapeGraph) (h : outputWellFormed g = true) :
    ∃ s, extractOutputShape g = .ok s := by
  rcases g with ⟨ins, outs⟩
  rcases outs with _ | ⟨o, rest⟩
  · simp [outputWellFormed] at h
  rcases rest with _ | ⟨o2, rest2⟩
  · rcases o with ⟨ty, p, u⟩
    simp only [outputWellFormed] at h
    rcases p with xs | elems | t
    · exact ⟨SymbolicShape.fromConcrete xs, by simp [extractOutputShape, h]⟩
    · by_cases hu : u = 1
      · exact ⟨⟨some elems⟩, by simp [extractOutputShape, h, hu]⟩
      · exact ⟨SymbolicShape.unranked, by simp [extractOutputShape, h, hu]⟩
    · exact ⟨SymbolicShape.unranked, by simp [extractOutputShape, h]⟩
  · simp [outputWellFormed] at h

/-- Helper: on a graph violating the output precondition, extraction aborts
with one of the two output asserts. -/
theorem extract_err_of_not_wf (g : ShapeGraph) (h : outputWellFormed g = false) :
    extractOutputShape g = .error .outputSizeNotOne ∨
    extractOutputShape g = .error .outputNotIntList := by
  rcases g with ⟨ins, outs⟩
  rcases outs with _ | ⟨o, rest⟩
  · left; rfl
  rcases rest with _ | ⟨o2, rest2⟩
  · right
    simp only [outputWellFormed] at h
    simp [extractOutputShape, h]
  · left; rfl

/-- C6: graph-wide propagation runs the analyzer on exactly the operations
whose resolvable signature is registered, overwriting that operation's output
tensor type with the derived symbolic shape while keeping all its other type
information (`rest`), and leaves every other operation entirely untouched; it
preserves the number and order of nodes. -/
theorem C6_graph_propagation (reg : List (String × ShapeGraph))
    (interp : PassName → ShapeGraph → ShapeGraph) (G G' : List JNode)
    (h : PropagateShapesOnGraph reg interp G = .ok G') :
    G'.length = G.length ∧
    ∀ i n, G.get? i = some n →
      (eligibleNode reg n = false → G'.get? i = some n) ∧
      (∀ s gfn, n.schema = some s → lookupFn reg s = some gfn →
        ∃ out sh rest, analyze interp n gfn = .ok out ∧
          n.outputs = [.tensorTy sh rest] ∧
          G'.get? i = some { n with outputs := [.tensorTy out rest] }) := by
  induction G generalizing G' with
  | nil =>
    unfold PropagateShapesOnGraph at h
    cases h
    exact ⟨rfl, fun i n hn => absurd hn (by simp)⟩
  | cons nd ns ih =>
    unfold PropagateShapesOnGraph at h
    cases hp : propagateNode reg interp nd with
    | error e => rw [hp] at h; simp at h
    | ok nd2 =>
      rw [hp] at h
      cases hr : PropagateShapesOnGraph reg interp ns with
      | error e => rw [hr] at h; simp at h
      | ok ns2 =>
        rw [hr] at h
        simp only [] at h
        injection h with h
        subst h
        obtain ⟨ihlen, ihel⟩ := ih ns2 hr
        refine ⟨by simp [ihlen], ?_⟩
        intro i n hn
        cases i with
        | zero =>
          simp only [List.get?] at hn
          injection hn with hn
          subst hn
          constructor
          · intro hel
            unfold propagateNode at hp
            split at hp
            next s hs =>
              split at hp
              next gg hl =>
                rw [eligibleNode, hs] at hel
                simp [hl] at hel
              next hl =>
                injection hp with hp
                subst hp
                rfl
            next hs =>
              injection hp with hp
              subst hp
              rfl
          · intro s gfn hs hl
            unfold propagateNode at hp
            split at hp
            next s2 hs2 =>
              rw [hs] at hs2
              injection hs2 with hs2
              subst hs2
              split at hp
              next gg hl2 =>
                rw [hl] at hl2
                injection hl2 with hl2
                subst hl2
                obtain ⟨out, sh, rest, ha, ho, hn2⟩ :=
                  propagateWith_ok_inv interp nd nd2 gfn hp
                subst hn2
                exact ⟨out, sh, rest, ha, ho, rfl⟩
              next hl2 =>
                rw [hl] at hl2
                cases hl2
            next hs2 =>
              rw [hs] at hs2
              cases hs2
        | succ j =>
          simp only [List.get?] at hn ⊢
          exact ihel j n hn

/-- Witness for C6 at a concrete input: a two-node graph where only the first
node's signature is registered — the first node's output shape is overwritten
keeping its other type information, the second node is untouched. -/
theorem C6_graph_propagation_witness :
    ([⟨some "op", [], [.tensorTy (SymbolicShape.fromConcrete [2, 3]) 7]⟩,
      ⟨some "other", [], [.tensorTy ⟨none⟩ 9]⟩] : List JNode).length =
      ([⟨some "op", [], [.tensorTy ⟨none⟩ 7]⟩,
        ⟨some "other", [], [.tensorTy ⟨none⟩ 9]⟩] : List JNode).length ∧
    ([⟨some "op", [], [.tensorTy (SymbolicShape.fromConcrete [2, 3]) 7]⟩,
      ⟨some "other", [], [.tensorTy ⟨none⟩ 9]⟩] : List JNode).get? 1 =
      some ⟨some "other", [], [.tensorTy ⟨none⟩ 9]⟩ := by
  have hthm := C6_graph_propagation [("op", ⟨[], [⟨.listOfInt, .constant [2, 3], 1⟩]⟩)]
    (fun _ g => g)
    [⟨some "op", [], [.tensorTy ⟨none⟩ 7]⟩, ⟨some "other", [], [.tensorTy ⟨none⟩ 9]⟩]
    [⟨some "op", [], [.tensorTy (SymbolicShape.fromConcrete [2, 3]) 7]⟩,
     ⟨some "other", [], [.tensorTy ⟨none⟩ 9]⟩] (by rfl)
  exact ⟨hthm.1, (hthm.2 1 ⟨some "other", [], [.tensorTy ⟨none⟩ 9]⟩ (by rfl)).1 (by rfl)⟩

/-- C7: exactly two conditions abort an analysis: a tensor-typed list input
(detected during specialization) and a simplified program whose output is not
a singleton statically typed as a sequence of integers (detected during
extraction, as one of its two asserts); with no tensor-list input and a
well-formed simplified output, the analysis always returns a shape. -/
theorem C7_fatal_conditions (interp : PassName → ShapeGraph → ShapeGraph)
    (n : JNode) (g : ShapeGraph) :
    (hasTensorListInput n = true → analyze interp n g = .error .tensorListInput) ∧
    (hasTensorListInput n = false →
      ∀ g0 tracked, specializeLoop 0 n.inputs g.copy = .ok (g0, tracked) →
        ((outputWellFormed (simplifiedGraph interp n tracked g0) = true →
            exceptOk (analyze interp n g) = true) ∧
         (outputWellFormed (simplifiedGraph interp n tracked g0) = false →
            analyze interp n g = .error .outputSizeNotOne ∨
            analyze interp n g = .error .outputNotIntList))) := by
  constructor
  · intro h
    unfold analyze
    rw [specializeLoop_fatal n.inputs 0 g.copy (by simpa [hasTensorListInput] using h)]
  · intro _ g0 tracked hsp
    have hana : analyze interp n g =
        extractOutputShape (simplifiedGraph interp n tracked g0) := by
      unfold analyze
      rw [hsp]
      rfl
    constructor
    · intro hwf
      obtain ⟨s, hs⟩ := extract_ok_of_wf _ hwf
      rw [hana, hs]
      rfl
    · intro hwf
      rw [hana]
      exact extract_err_of_not_wf _ hwf

/-- Witness for C7 at concrete inputs: a node with a tensor-list input aborts
with the tensor-list assertion; a node without one, against a shape program
with a single constant `List[int]` output, completes without aborting. -/
theorem C7_fatal_conditions_witness :
    analyze (fun _ g => g) ⟨none, [.tensorList], []⟩ ⟨[], []⟩ =
      .error .tensorListInput ∧
    exceptOk (analyze (fun _ g => g) ⟨none, [], []⟩
      ⟨[], [⟨.listOfInt, .constant [2, 3], 1⟩]⟩) = true := by
  constructor
  · exact (C7_fatal_conditions (fun _ g => g) ⟨none, [.tensorList], []⟩ ⟨[], []⟩).1 rfl
  · exact ((C7_fatal_conditions (fun _ g => g) ⟨none, [], []⟩
      ⟨[], [⟨.listOfInt, .constant [2, 3], 1⟩]⟩).2 rfl
      ⟨[], [⟨.listOfInt, .constant [2, 3], 1⟩]⟩ [] rfl).1 (by rfl)

/-- C8: the analysis is deterministic and repeat-stable: after a successful
propagation onto a node, re-running the analyzer on that node against the
same registered program yields the identical symbolic shape (the analysis
reads only the node's inputs and a fresh private copy of the program), and
re-propagating leaves the node fixed. -/
theorem C8_idempotent_rerun (interp : PassName → ShapeGraph → ShapeGraph)
    (n n' : JNode) (g : ShapeGraph) (s : SymbolicShape)
    (h1 : analyze interp n g = .ok s)
    (h2 : PropagateShapesWithShapeFunction interp n g = .ok n') :
    analyze interp n' g = .ok s ∧
    PropagateShapesWithShapeFunction interp n' g = .ok n' := by
  obtain ⟨out, sh, rest, ha, ho, hn⟩ := propagateWith_ok_inv interp n n' g h2
  rw [h1] at ha
  injection ha with ha
  subst ha
  subst hn
  have hre : analyze interp { n with outputs := [.tensorTy s rest] } g = .ok s :=
    (analyze_inputs_congr interp { n with outputs := [.tensorTy s rest] } n g rfl).trans h1
  refine ⟨hre, ?_⟩
  exact propagateWith_ok_build interp { n with outputs := [.tensorTy s rest] } g
    s s rest hre rfl

/-- Witness for C8 at concrete inputs: re-analyzing and re-propagating the
already-annotated node reproduces the same shape and the same node. -/
theorem C8_idempotent_rerun_witness :
    analyze (fun _ g => g) ⟨none, [], [.tensorTy (SymbolicShape.fromConcrete [2, 3]) 0]⟩
        ⟨[], [⟨.listOfInt, .constant [2, 3], 1⟩]⟩ =
      .ok (SymbolicShape.fromConcrete [2, 3]) ∧
    PropagateShapesWithShapeFunction (fun _ g => g)
        ⟨none, [], [.tensorTy (SymbolicShape.fromConcrete [2, 3]) 0]⟩
        ⟨[], [⟨.listOfInt, .constant [2, 3], 1⟩]⟩ =
      .ok ⟨none, [], [.tensorTy (SymbolicShape.fromConcrete [2, 3]) 0]⟩ :=
  C8_idempotent_rerun (fun _ g => g) ⟨none, [], [.tensorTy ⟨none⟩ 0]⟩
    ⟨none, [], [.tensorTy (SymbolicShape.fromConcrete [2, 3]) 0]⟩
    ⟨[], [⟨.listOfInt, .constant [2, 3], 1⟩]⟩ (SymbolicShape.fromConcrete [2, 3])
    (by rfl) (by rfl)

/-- C9: the analyzer mutates only its private copy of the shape program: a
successful propagation changes neither the node's schema nor its inputs (only
the single output's shape), graph-wide propagation leaves the registry
exactly as it was, and analyzing the private copy is analyzing the registered
value. -/
theorem C9_frame (interp : PassName → ShapeGraph → ShapeGraph) (reg reg' : ShapeRegistry)
    (n n' : JNode) (g : ShapeGraph) (G G' : List JNode) :
    (PropagateShapesWithShapeFunction interp n g = .ok n' →
      n'.schema = n.schema ∧ n'.inputs = n.inputs) ∧
    (PropagateShapesOnGraphR reg interp G = .ok (reg', G') → reg' = reg) ∧
    analyze interp n g.copy = analyze interp n g := by
  refine ⟨?_, ?_, rfl⟩
  · intro h
    obtain ⟨out, sh, rest, _, _, hn⟩ := propagateWith_ok_inv interp n n' g h
    subst hn
    exact ⟨rfl, rfl⟩
  · intro h
    unfold PropagateShapesOnGraphR at h
    cases hP : PropagateShapesOnGraph reg.operator_functions interp G with
    | error e => rw [hP] at h; simp [Except.map] at h
    | ok G2 =>
      rw [hP] at h
      simp only [Except.map] at h
      injection h with h2
      exact (congrArg Prod.fst h2).symm

/-- Witness for C9 at concrete inputs: after a successful propagation the
node's schema and inputs are unchanged, and graph-wide propagation returns
the registry it was given. -/
theorem C9_frame_witness :
    ((⟨none, [], [.tensorTy (SymbolicShape.fromConcrete [2, 3]) 0]⟩ : JNode).schema =
        (⟨none, [], [.tensorTy ⟨none⟩ 0]⟩ : JNode).schema ∧
      (⟨none, [], [.tensorTy (SymbolicShape.fromConcrete [2, 3]) 0]⟩ : JNode).inputs =
        (⟨none, [], [.tensorTy ⟨none⟩ 0]⟩ : JNode).inputs) ∧
    (⟨[]⟩ : ShapeRegistry) = ⟨[]⟩ := by
  constructor
  · exact (C9_frame (fun _ g => g) ⟨[]⟩ ⟨[]⟩ ⟨none, [], [.tensorTy ⟨none⟩ 0]⟩
      ⟨none, [], [.tensorTy (SymbolicShape.fromConcrete [2, 3]) 0]⟩
      ⟨[], [⟨.listOfInt, .constant [2, 3], 1⟩]⟩ [] []).1 (by rfl)
  · exact (C9_frame (fun _ g => g) ⟨[]⟩ ⟨[]⟩ ⟨none, [], [.tensorTy ⟨none⟩ 0]⟩
      ⟨none, [], [.tensorTy (SymbolicShape.fromConcrete [2, 3]) 0]⟩
      ⟨[], [⟨.listOfInt, .constant [2, 3], 1⟩]⟩ [] []).2.1 (by rfl)

/-- C10: writing a derived shape onto an operation requires exactly one
output of tensor type: with a single tensor output propagation succeeds and
annotates it, while a single non-tensor output or any other output count
makes propagation throw even though the analysis itself returned a shape. -/
theorem C10_propagate_output_precondition (interp : PassName → ShapeGraph → ShapeGraph)
    (n : JNode) (g : ShapeGraph) (s : SymbolicShape)
    (h : analyze interp n g = .ok s) :
    (∀ sh rest, n.outputs = [.tensorTy sh rest] →
      PropagateShapesWithShapeFunction interp n g =
        .ok { n with outputs := [.tensorTy s rest] }) ∧
    (∀ t, n.outputs = [.nonTensorTy t] →
      PropagateShapesWithShapeFunction interp n g = .error .expectedTensorType) ∧
    ((∀ t, n.outputs ≠ [t]) →
      PropagateShapesWithShapeFunction interp n g = .error .singleOutputExpected) := by
  refine ⟨?_, ?_, ?_⟩
  · intro sh rest ho
    exact propagateWith_ok_build interp n g s sh rest h ho
  · intro t ho
    unfold PropagateShapesWithShapeFunction JNode.output
    rw [h, ho]
  · intro hno
    unfold PropagateShapesWithShapeFunction JNode.output
    rw [h]
    cases ho : n.outputs with
    | nil => rfl
    | cons t rest2 =>
      cases rest2 with
      | nil => exact absurd ho (hno t)
      | cons t2 rest3 => rfl

/-- Witness for C10 at concrete inputs: with the analysis succeeding, a
two-output node and a single non-tensor-output node both make propagation
throw. -/
theorem C10_propagate_output_precondition_witness :
    PropagateShapesWithShapeFunction (fun _ g => g)
        ⟨none, [], [.tensorTy ⟨none⟩ 0, .tensorTy ⟨none⟩ 1]⟩
        ⟨[], [⟨.listOfInt, .constant [2, 3], 1⟩]⟩ = .error .singleOutputExpected ∧
    PropagateShapesWithShapeFunction (fun _ g => g)
        ⟨none, [], [.nonTensorTy 0]⟩
        ⟨[], [⟨.listOfInt, .constant [2, 3], 1⟩]⟩ = .error .expectedTensorType := by
  constructor
  · exact (C10_propagate_output_precondition (fun _ g => g)
      ⟨none, [], [.tensorTy ⟨none⟩ 0, .tensorTy ⟨none⟩ 1]⟩
      ⟨[], [⟨.listOfInt, .constant [2, 3], 1⟩]⟩
      (SymbolicShape.fromConcrete [2, 3]) (by rfl)).2.2
      (by intro t ht; simp at ht)
  · exact (C10_propagate_output_precondition (fun _ g => g)
      ⟨none, [], [.nonTensorTy 0]⟩
      ⟨[], [⟨.listOfInt, .constant [2, 3], 1⟩]⟩
      (SymbolicShape.fromConcrete [2, 3]) (by rfl)).2.1 0 rfl
